import Mathlib

/-!
# Verification of the 4D-Tetris game-state engine

Shallow embedding of the game-state engine of `src/tetris.c` (board, piece,
collision checking, movement, rotation, locking, line clearing, quadrant
gravity, score/speed update), together with theorems settling the spec claims.

The board is a `20 × 20` grid; cell value `0` is `BLACK` (empty), values
`1..7` are piece-color tags.  A board is modelled as a total function
`Nat × Nat → Nat` indexed by `(row, column)`; only the cells with both
coordinates below `20` are ever read or written by the engine, matching
`board.cells[y][x]` in the C source.
-/

/-- A board position `(y, x)` (row, column), as indexed by `board.cells[y][x]`. -/
abbrev Pos : Type := Nat × Nat

/-- The board: cell value at each `(y, x)`; `0` is `BLACK` (empty). -/
abbrev Board : Type := Pos → Nat

/-- The active piece: position `(x, y)` of its 4×4 bounding box, kind,
rotation state and movement direction, mirroring `struct Piece`. -/
structure Piece where
  x : Int
  y : Int
  type : Nat
  rotation : Nat
  direction : Nat

/-- Whole engine state: board, active piece, score, fall-period (`speed`),
LCG state (`randState`) and terminal flag, mirroring the globals of the C
source. -/
structure State where
  board : Board
  piece : Piece
  score : Nat
  speed : Int
  randState : Nat
  gameOver : Bool

/-- The shape table `TETROMINOS[7][4]`: 16-bit masks of each kind × rotation. -/
def TETROMINOS : List (List Nat) :=
  [[0x0F00, 0x2222, 0x0F00, 0x2222],
   [0x8E00, 0x6440, 0x0E20, 0x44C0],
   [0x2E00, 0x4460, 0x0E80, 0xC440],
   [0x6600, 0x6600, 0x6600, 0x6600],
   [0x6C00, 0x4620, 0x6C00, 0x4620],
   [0x4E00, 0x4640, 0x0E40, 0x4C40],
   [0xC600, 0x2640, 0xC600, 0x2640]]

/-- Shape mask lookup `TETROMINOS[t][r]`. -/
def shape (t r : Nat) : Nat := (TETROMINOS.getD t []).getD r 0

/-- Bit test `(shape >> (15 - (y * 4 + x))) & 1` of the 4×4 shape grid. -/
def occupies (t r y x : Nat) : Bool :=
  (shape t r >>> (15 - (y * 4 + x))) &&& 1 == 1

/-- Collision test `check_collision`: some occupied shape cell, translated by
the piece position, is out of `[0, 20) × [0, 20)` or on a non-empty board
cell. -/
def check_collision (b : Board) (p : Piece) : Bool :=
  (List.range 4).any fun y => (List.range 4).any fun x =>
    occupies p.type p.rotation y x &&
      (decide (p.x + (x : Int) < 0) || decide (20 ≤ p.x + (x : Int)) ||
       decide (p.y + (y : Int) < 0) || decide (20 ≤ p.y + (y : Int)) ||
       (b ((p.y + (y : Int)).toNat, (p.x + (x : Int)).toNat) != 0))

/-- The sixteen `(y, x)` cells of the 4×4 shape grid, in scan order. -/
def cells16 : List (Nat × Nat) :=
  (List.range 4).flatMap fun y => (List.range 4).map fun x => (y, x)

/-- `lock_piece`: write the piece's occupied cells into the board with color
tag `type + 1`. -/
def lock_piece (b : Board) (p : Piece) : Board :=
  cells16.foldl
    (fun acc yx =>
      if occupies p.type p.rotation yx.1 yx.2 then
        Function.update acc ((p.y + (yx.1 : Int)).toNat, (p.x + (yx.2 : Int)).toNat) (p.type + 1)
      else acc)
    b

/-- `rotate_piece`: advance the rotation by `1` modulo `4`; revert if the
rotated placement collides. -/
def rotate_piece (b : Board) (p : Piece) : Piece :=
  if check_collision b { p with rotation := (p.rotation + 1) % 4 } then p
  else { p with rotation := (p.rotation + 1) % 4 }

/-- One directional tick translation of `handle_tick_movement`
(down `0`: +y, up `1`: −y, left `2`: −x, right `3`: +x). -/
def moveDir (p : Piece) : Piece :=
  match p.direction with
  | 0 => { p with y := p.y + 1 }
  | 1 => { p with y := p.y - 1 }
  | 2 => { p with x := p.x - 1 }
  | 3 => { p with x := p.x + 1 }
  | _ => p

/-- The undo translation of `handle_tick_movement` (inverse of `moveDir`). -/
def undoDir (p : Piece) : Piece :=
  match p.direction with
  | 0 => { p with y := p.y - 1 }
  | 1 => { p with y := p.y + 1 }
  | 2 => { p with x := p.x + 1 }
  | 3 => { p with x := p.x - 1 }
  | _ => p

/-- Row completeness of `check_lines`: none of the 20 cells of row `y` is
empty. -/
def rowComplete (b : Board) (y : Nat) : Bool :=
  (List.range 20).all fun x => b (y, x) != 0

/-- Column completeness of `check_lines`: none of the 20 cells of column `x`
is empty. -/
def colComplete (b : Board) (x : Nat) : Bool :=
  (List.range 20).all fun y => b (y, x) != 0

/-- Clear row `y`: set its 20 cells to `BLACK`. -/
def clearRow (b : Board) (y : Nat) : Board :=
  fun q => if q.1 = y ∧ q.2 < 20 then 0 else b q

/-- Clear column `x`: set its 20 cells to `BLACK`. -/
def clearCol (b : Board) (x : Nat) : Board :=
  fun q => if q.2 = x ∧ q.1 < 20 then 0 else b q

/-- Running state of the `check_lines` scan: current board, `linesCleared`,
`lastClearedRow` and `lastClearedCol` (`-1` when none). -/
structure ScanResult where
  board : Board
  lines : Nat
  lastRow : Int
  lastCol : Int

/-- One step of the horizontal scan of `check_lines` at row `y`. -/
def rowPass (s : ScanResult) (y : Nat) : ScanResult :=
  if rowComplete s.board y then
    { s with board := clearRow s.board y, lines := s.lines + 1, lastRow := (y : Int) }
  else s

/-- One step of the vertical scan of `check_lines` at column `x`. -/
def colPass (s : ScanResult) (x : Nat) : ScanResult :=
  if colComplete s.board x then
    { s with board := clearCol s.board x, lines := s.lines + 1, lastCol := (x : Int) }
  else s

/-- The horizontal-lines phase of `check_lines`: scan rows `0..19`, clearing
each complete row as it is found. -/
def rowPhase (b : Board) : ScanResult :=
  (List.range 20).foldl rowPass ⟨b, 0, -1, -1⟩

/-- The full detection-and-clear scan of `check_lines`: rows first, then
columns, on the board as already mutated by the row clears. -/
def clearScan (b : Board) : ScanResult :=
  (List.range 20).foldl colPass (rowPhase b)

/-- Score and speed update of `check_lines`: the `switch (linesCleared)`
statement.  Returns the new `(score, speed)`. -/
def scoreSpeedUpdate (sc : Nat) (sp : Int) (n : Nat) : Nat × Int :=
  match n with
  | 1 => (sc + 100, if 1000 < sp then sp - ((sc : Int) + 100) * 400 else sp)
  | 2 => (sc + 300, if 1000 < sp then sp - ((sc : Int) + 300) * 400 * 2 else sp)
  | 3 => (sc + 500, if 1000 < sp then sp - ((sc : Int) + 500) * 400 * 3 else sp)
  | 4 => (sc + 800, if 1000 < sp then sp - ((sc : Int) + 800) * 400 * 4 else sp)
  | _ => (sc, sp)

/-- Move attempt of `apply_gravity` for one (source, target) cell pair: if the
source is occupied and the target empty, the cell moves and one change is
counted. -/
def moveCell (b : Board) (s t : Pos) : Board × Nat :=
  if b s ≠ 0 ∧ b t = 0 then (Function.update (Function.update b t (b s)) s 0, 1) else (b, 0)

/-- One full sweep of `apply_gravity` over a list of (source, target) pairs in
scan order, threading the board and counting changes. -/
def sweepRule : List (Pos × Pos) → Board → Board × Nat
  | [], b => (b, 0)
  | pr :: rest, b =>
    ((sweepRule rest (moveCell b pr.1 pr.2).1).1,
     (moveCell b pr.1 pr.2).2 + (sweepRule rest (moveCell b pr.1 pr.2).1).2)

/-- Upward-fall pairs (row cleared above `centerY`): `y = 1..9` outer,
`x = 0..19` inner, each cell falling to the row directly above. -/
def upPairs : List (Pos × Pos) :=
  ((List.range 9).map (· + 1)).flatMap fun y =>
    (List.range 20).map fun x => (((y, x) : Pos), ((y - 1, x) : Pos))

/-- Downward-fall pairs (row cleared at or below `centerY`): `y = 18..10`
descending outer, `x = 0..19` inner. -/
def downPairs : List (Pos × Pos) :=
  ((List.range 9).map (fun k => 18 - k)).flatMap fun y =>
    (List.range 20).map fun x => (((y, x) : Pos), ((y + 1, x) : Pos))

/-- Top-right-quadrant rightward-fall pairs: `x = 18..10` descending outer,
`y = 0..9` inner. -/
def topRightPairs : List (Pos × Pos) :=
  ((List.range 9).map (fun k => 18 - k)).flatMap fun x =>
    (List.range 10).map fun y => (((y, x) : Pos), ((y, x + 1) : Pos))

/-- Top-left-quadrant leftward-fall pairs: `x = 1..9` outer, `y = 0..9`
inner. -/
def topLeftPairs : List (Pos × Pos) :=
  ((List.range 9).map (· + 1)).flatMap fun x =>
    (List.range 10).map fun y => (((y, x) : Pos), ((y, x - 1) : Pos))

/-- Bottom-right-quadrant rightward-fall pairs: `x = 18..10` descending outer,
`y = 10..19` inner. -/
def botRightPairs : List (Pos × Pos) :=
  ((List.range 9).map (fun k => 18 - k)).flatMap fun x =>
    ((List.range 10).map (· + 10)).map fun y => (((y, x) : Pos), ((y, x + 1) : Pos))

/-- Bottom-left-quadrant leftward-fall pairs: `x = 1..9` outer, `y = 10..19`
inner. -/
def botLeftPairs : List (Pos × Pos) :=
  ((List.range 9).map (· + 1)).flatMap fun x =>
    ((List.range 10).map (· + 10)).map fun y => (((y, x) : Pos), ((y, x - 1) : Pos))

/-- Row-gravity pairs selected by `clearedRow` (`-1`: none; above `centerY`:
fall upward; otherwise fall downward). -/
def rowPairs (cr : Int) : List (Pos × Pos) :=
  if cr = -1 then [] else if cr < 10 then upPairs else downPairs

/-- Column-gravity pairs selected by `clearedCol` (`-1`: none; at or right of
`centerX`: both right-half quadrants fall rightward; otherwise both left-half
quadrants fall leftward). -/
def colPairs (cc : Int) : List (Pos × Pos) :=
  if cc = -1 then [] else
  if 10 ≤ cc then topRightPairs ++ botRightPairs else topLeftPairs ++ botLeftPairs

/-- All (source, target) pairs of one full `apply_gravity` sweep, in the scan
order of the C source: the row rule, then the column rules. -/
def gravPairs (cr cc : Int) : List (Pos × Pos) :=
  rowPairs cr ++ colPairs cc

/-- The 400 board cells `[0, 20) × [0, 20)`. -/
def cellArea : Finset Pos := Finset.range 20 ×ˢ Finset.range 20

/-- Potential of a board under a weight `w`: total weight of its occupied
cells.  Each gravity move strictly decreases it. -/
def potential (w : Pos → Nat) (b : Board) : Nat :=
  ∑ q ∈ cellArea, if b q ≠ 0 then w q else 0

/-- Per-invocation weight for the gravity potential: distance to the edge the
cells fall toward, along each active axis. -/
def wgt (cr cc : Int) (q : Pos) : Nat :=
  (if cr = -1 then 0 else if cr < 10 then q.1 else 19 - q.1) +
    (if cc = -1 then 0 else if 10 ≤ cc then 19 - q.2 else q.2)

/-- Fuel-bounded fixed-point iteration of `apply_gravity`: repeat full sweeps
until a sweep counts zero changes. -/
def gravityFuel : Nat → List (Pos × Pos) → Board → Board
  | 0, _, b => b
  | n + 1, l, b =>
    if (sweepRule l b).2 = 0 then b else gravityFuel n l (sweepRule l b).1

/-- `apply_gravity`: the do-while sweep loop, run with enough fuel
(`potential + 1` sweeps always reach the fixed point, proved below). -/
def apply_gravity (cr cc : Int) (b : Board) : Board :=
  gravityFuel (potential (wgt cr cc) b + 1) (gravPairs cr cc) b

/-- The board after `n` full gravity sweeps (for stating termination). -/
def sweepIter : Nat → List (Pos × Pos) → Board → Board
  | 0, _, b => b
  | n + 1, l, b => sweepIter n l (sweepRule l b).1

/-- `check_lines`: scan and clear complete lines, apply gravity if any line
was cleared, then update score and speed. -/
def check_lines (s : State) : State :=
  { s with
    board :=
      if (clearScan s.board).lastRow ≠ -1 ∨ (clearScan s.board).lastCol ≠ -1 then
        apply_gravity (clearScan s.board).lastRow (clearScan s.board).lastCol
          (clearScan s.board).board
      else (clearScan s.board).board
    score := (scoreSpeedUpdate s.score s.speed (clearScan s.board).lines).1
    speed := (scoreSpeedUpdate s.score s.speed (clearScan s.board).lines).2 }

/-- One step of the linear congruential generator `my_rand` on the 32-bit
`randState`. -/
def nextRand (r : Nat) : Nat := (r * 1103515245 + 12345) % 4294967296

/-- `my_rand`: returns the new `randState` and the 15-bit draw
`(randState >> 16) & 0x7fff`. -/
def my_rand (r : Nat) : Nat × Nat := (nextRand r, (nextRand r >>> 16) &&& 0x7fff)

/-- The piece built by `spawn_piece` from LCG state `r`: random kind, rotation
`0`, centered position `(8, 8)`, random direction. -/
def spawnedPiece (r : Nat) : Piece :=
  { x := 8, y := 8, type := (my_rand r).2 % 7, rotation := 0,
    direction := (my_rand (my_rand r).1).2 % 4 }

/-- `spawn_piece`: spawn a fresh piece; a collision at the spawn placement
sets the terminal flag. -/
def spawn_piece (s : State) : State :=
  { s with
    piece := spawnedPiece s.randState,
    randState := (my_rand (my_rand s.randState).1).1,
    gameOver := s.gameOver || check_collision s.board (spawnedPiece s.randState) }

/-- `handle_tick_movement`: translate the piece one cell along its direction;
on collision undo the translation, lock the piece, run the line clear and
spawn the successor. -/
def handle_tick_movement (s : State) : State :=
  if check_collision s.board (moveDir s.piece) then
    spawn_piece (check_lines
      { s with
        piece := undoDir (moveDir s.piece),
        board := lock_piece s.board (undoDir (moveDir s.piece)) })
  else { s with piece := moveDir s.piece }

/-- Scoring table of the spec: points added for `n` simultaneous lines. -/
def lineBonus (n : Nat) : Nat :=
  match n with
  | 1 => 100
  | 2 => 300
  | 3 => 500
  | 4 => 800
  | _ => 0

/-- Number of rows of `b` that are complete (evaluated on `b` itself). -/
def numCompleteRows (b : Board) : Nat :=
  ((List.range 20).filter fun y => rowComplete b y).length

/-- Number of columns of `b` that are complete (evaluated on `b` itself). -/
def numCompleteCols (b : Board) : Nat :=
  ((List.range 20).filter fun x => colComplete b x).length

/-- The board `b` with every row below `k` that is complete in `b` cleared
simultaneously. -/
def rowsCleared (b : Board) (k : Nat) : Board :=
  fun q => if q.1 < k ∧ q.2 < 20 ∧ rowComplete b q.1 = true then 0 else b q

/-- The board `b` with every column below `k` that is complete in `b` cleared
simultaneously. -/
def colsCleared (b : Board) (k : Nat) : Board :=
  fun q => if q.2 < k ∧ q.1 < 20 ∧ colComplete b q.2 = true then 0 else b q

/-- Settledness of the upward-fall rule: no occupied cell in rows `[1, 10)`
has an empty cell directly above it. -/
def upSettled (b : Board) : Prop :=
  ∀ y x : Nat, 1 ≤ y → y < 10 → x < 20 → b (y, x) ≠ 0 → b (y - 1, x) ≠ 0

/-- Settledness of the downward-fall rule: no occupied cell in rows `[10, 19)`
has an empty cell directly below it. -/
def downSettled (b : Board) : Prop :=
  ∀ y x : Nat, 10 ≤ y → y < 19 → x < 20 → b (y, x) ≠ 0 → b (y + 1, x) ≠ 0

/-- Settledness of the rightward-fall rule on both right-half quadrants: no
occupied cell in columns `[10, 19)` has an empty cell directly to its
right. -/
def rightSettled (b : Board) : Prop :=
  ∀ y x : Nat, y < 20 → 10 ≤ x → x < 19 → b (y, x) ≠ 0 → b (y, x + 1) ≠ 0

/-- Settledness of the leftward-fall rule on both left-half quadrants: no
occupied cell in columns `[1, 10)` has an empty cell directly to its left. -/
def leftSettled (b : Board) : Prop :=
  ∀ y x : Nat, y < 20 → 1 ≤ x → x < 10 → b (y, x) ≠ 0 → b (y, x - 1) ≠ 0

/-- Membership of a board cell in the locked piece's translated shape
footprint. -/
def inFootprint (p : Piece) (q : Pos) : Bool :=
  (List.range 4).any fun y => (List.range 4).any fun x =>
    occupies p.type p.rotation y x &&
      decide ((((p.y + (y : Int)).toNat, (p.x + (x : Int)).toNat) : Pos) = q)

/-- The empty board. -/
def emptyBoard : Board := fun _ => 0

/-- Board with row `0` fully occupied and all other cells empty. -/
def boardRow0 : Board := fun q => if q.1 = 0 then 1 else 0

/-- Board with row `0` and column `0` fully occupied and all other cells
empty. -/
def boardCross : Board := fun q => if q.1 = 0 ∨ q.2 = 0 then 1 else 0

/-- Board with rows `0..4` fully occupied and all other cells empty. -/
def boardFiveRows : Board := fun q => if q.1 < 5 then 1 else 0

/-- A state for concrete evaluations: board with one full row, score `0`,
speed `1001`. -/
def stateRow0 : State :=
  { board := boardRow0, piece := ⟨0, 0, 0, 0, 0⟩, score := 0, speed := 1001,
    randState := 1, gameOver := false }

/-- A state whose board clears five lines in one pass. -/
def stateFiveRows : State :=
  { board := boardFiveRows, piece := ⟨0, 0, 0, 0, 0⟩, score := 7, speed := 500000,
    randState := 1, gameOver := false }

/-- A state whose piece is about to collide with the bottom edge moving
down. -/
def stateAtBottom : State :=
  { board := emptyBoard, piece := { x := 8, y := 18, type := 3, rotation := 0, direction := 0 },
    score := 0, speed := 899999, randState := 1, gameOver := false }

/-- Accepted rotations: if the advanced rotation is collision-free, the
rotation state advances by exactly one modulo four and nothing else
changes. -/
theorem rotate_accepted (b : Board) (q : Piece)
    (h : check_collision b { q with rotation := (q.rotation + 1) % 4 } = false) :
    rotate_piece b q = { q with rotation := (q.rotation + 1) % 4 } := by
  unfold rotate_piece
  rw [h]
  simp

/-- Rejected rotations leave the piece unchanged. -/
theorem rotate_rejected (b : Board) (q : Piece)
    (h : check_collision b { q with rotation := (q.rotation + 1) % 4 } = true) :
    rotate_piece b q = q := by
  unfold rotate_piece
  rw [h]
  simp

/-- C5.  `check_collision` reports a collision iff some occupied cell of the
piece's 4×4 shape, translated by the piece position, falls outside
`[0, 20) × [0, 20)` or lands on a non-empty board cell.  The embedding is a
pure function of the board and piece, so it has no side effect on either. -/
theorem c5_collision_iff (b : Board) (p : Piece) :
    check_collision b p = true ↔
      ∃ y x : Nat, y < 4 ∧ x < 4 ∧ occupies p.type p.rotation y x = true ∧
        (p.x + (x : Int) < 0 ∨ 20 ≤ p.x + (x : Int) ∨ p.y + (y : Int) < 0 ∨
          20 ≤ p.y + (y : Int) ∨ b ((p.y + (y : Int)).toNat, (p.x + (x : Int)).toNat) ≠ 0) := by
  simp only [check_collision, List.any_eq_true, List.mem_range, Bool.and_eq_true,
    Bool.or_eq_true, decide_eq_true_eq, bne_iff_ne, ne_eq]
  constructor
  · rintro ⟨y, hy, x, hx, hocc, hcol⟩
    exact ⟨y, x, hy, hx, hocc, by tauto⟩
  · rintro ⟨y, x, hy, hx, hocc, hcol⟩
    exact ⟨y, hy, x, hx, hocc, by tauto⟩

/-- C8.  For an unobstructed piece (all four rotation states collision-free at
its position, rotation state in range), four applications of the rotation
operation return it to its original rotation and position; moreover each
accepted rotation advances the rotation state by exactly one modulo four, and
a rejected rotation restores the prior rotation state. -/
theorem c8_rotation_cycle (b : Board) (p : Piece) (hrot : p.rotation < 4)
    (hfree : ∀ r, r < 4 → check_collision b { p with rotation := r } = false) :
    rotate_piece b (rotate_piece b (rotate_piece b (rotate_piece b p))) = p ∧
      (∀ q : Piece,
        check_collision b { q with rotation := (q.rotation + 1) % 4 } = false →
          rotate_piece b q = { q with rotation := (q.rotation + 1) % 4 }) ∧
      (∀ q : Piece,
        check_collision b { q with rotation := (q.rotation + 1) % 4 } = true →
          rotate_piece b q = q) := by
  refine ⟨?_, fun q hq => rotate_accepted b q hq, fun q hq => rotate_rejected b q hq⟩
  have step : ∀ r : Nat, r < 4 →
      rotate_piece b { p with rotation := r } = { p with rotation := (r + 1) % 4 } := by
    intro r _
    have := rotate_accepted b { p with rotation := r }
      (by simpa using hfree ((r + 1) % 4) (Nat.mod_lt _ (by omega)))
    simpa using this
  have hp : p = { p with rotation := p.rotation } := rfl
  rw [hp, step p.rotation hrot, step _ (Nat.mod_lt _ (by omega)),
    step _ (Nat.mod_lt _ (by omega)), step _ (Nat.mod_lt _ (by omega))]
  have : ((((p.rotation + 1) % 4 + 1) % 4 + 1) % 4 + 1) % 4 = p.rotation := by omega
  rw [this]

/-- Witness for C8 at a concrete unobstructed piece on the empty board. -/
theorem c8_rotation_cycle_witness :
    rotate_piece emptyBoard (rotate_piece emptyBoard (rotate_piece emptyBoard
      (rotate_piece emptyBoard ⟨8, 8, 0, 0, 0⟩))) = (⟨8, 8, 0, 0, 0⟩ : Piece) :=
  (c8_rotation_cycle emptyBoard ⟨8, 8, 0, 0, 0⟩ (by decide) (by decide)).1

/-- Undoing a tick translation restores the piece exactly, for every valid
direction. -/
theorem undo_moveDir (p : Piece) (h : p.direction < 4) : undoDir (moveDir p) = p := by
  obtain ⟨x, y, t, r, d⟩ := p
  simp only at h
  interval_cases d <;> simp [moveDir, undoDir]

/-- C6.  On a movement tick the piece is translated by exactly one cell along
its direction; when the translated placement collides, the position is
restored exactly to the pre-tick piece (kind, rotation and direction
unchanged) and the piece is locked into the board at that restored
position (after which the line clear runs and the successor spawns). -/
theorem c6_tick_lock (s : State) (hdir : s.piece.direction < 4)
    (hcol : check_collision s.board (moveDir s.piece) = true) :
    undoDir (moveDir s.piece) = s.piece ∧
      (s.piece.direction = 0 → moveDir s.piece = { s.piece with y := s.piece.y + 1 }) ∧
      (s.piece.direction = 1 → moveDir s.piece = { s.piece with y := s.piece.y - 1 }) ∧
      (s.piece.direction = 2 → moveDir s.piece = { s.piece with x := s.piece.x - 1 }) ∧
      (s.piece.direction = 3 → moveDir s.piece = { s.piece with x := s.piece.x + 1 }) ∧
      handle_tick_movement s =
        spawn_piece (check_lines { s with board := lock_piece s.board s.piece }) := by
  refine ⟨undo_moveDir _ hdir, fun h => by simp [moveDir, h], fun h => by simp [moveDir, h],
    fun h => by simp [moveDir, h], fun h => by simp [moveDir, h], ?_⟩
  simp only [handle_tick_movement, hcol, if_true, undo_moveDir _ hdir]

/-- Witness for C6: a piece at the bottom edge moving down locks in place. -/
theorem c6_tick_lock_witness :
    handle_tick_movement stateAtBottom =
      spawn_piece (check_lines
        { stateAtBottom with board := lock_piece stateAtBottom.board stateAtBottom.piece }) :=
  (c6_tick_lock stateAtBottom (by decide) (by decide)).2.2.2.2.2

/-- C7.  A pass clearing exactly 1, 2, 3 or 4 lines (rows and columns counted
together) adds exactly 100, 300, 500 or 800 to the score. -/
theorem c7_scoring (s : State) :
    ((clearScan s.board).lines = 1 → (check_lines s).score = s.score + 100) ∧
      ((clearScan s.board).lines = 2 → (check_lines s).score = s.score + 300) ∧
      ((clearScan s.board).lines = 3 → (check_lines s).score = s.score + 500) ∧
      ((clearScan s.board).lines = 4 → (check_lines s).score = s.score + 800) := by
  refine ⟨fun h => ?_, fun h => ?_, fun h => ?_, fun h => ?_⟩ <;>
    simp [check_lines, h, scoreSpeedUpdate]

set_option maxRecDepth 1000000 in
/-- Witness for C7: one full row clears and scores exactly 100. -/
theorem c7_scoring_witness :
    (clearScan stateRow0.board).lines = 1 ∧
      (check_lines stateRow0).score = stateRow0.score + 100 :=
  ⟨by decide, (c7_scoring stateRow0).1 (by decide)⟩

set_option maxRecDepth 1000000 in
/-- Counterexample for C2: a pass with fall-period above the threshold whose
unfloored decrease takes the fall-period far below 1000 (here to `-38999`),
refuting both "the fall-period never drops at or below 1000" and "the
fall-period always stays a positive integer". -/
theorem c2_cex : 1000 < stateRow0.speed ∧ (check_lines stateRow0).speed ≤ 1000 :=
  ⟨by decide, by decide⟩

/-- C2 (amended).  A pass clearing `n ∈ [1, 4]` lines with running score `s`
after the clear decreases the fall-period by `s × 400 × n` exactly when the
fall-period exceeds 1000, and leaves it unchanged once it is at or below
1000; the decrease is not floored, so the result may be at or below 1000 and
even negative. -/
theorem c2_speed_update (s : State) (h1 : 1 ≤ (clearScan s.board).lines)
    (h4 : (clearScan s.board).lines ≤ 4) :
    (1000 < s.speed →
      (check_lines s).speed =
        s.speed - ((s.score : Int) + (lineBonus (clearScan s.board).lines : Int)) * 400 *
          ((clearScan s.board).lines : Int)) ∧
      (s.speed ≤ 1000 → (check_lines s).speed = s.speed) ∧
      (check_lines s).score = s.score + lineBonus (clearScan s.board).lines := by
  refine ⟨fun hsp => ?_, fun hsp => ?_, ?_⟩ <;>
      rcases hn : (clearScan s.board).lines with _ | _ | _ | _ | _ | m <;>
      rw [hn] at h1 h4 <;> try omega
  all_goals
    first
      | (simp [check_lines, hn, scoreSpeedUpdate, lineBonus, if_pos hsp]; try ring_nf)
      | (simp [check_lines, hn, scoreSpeedUpdate, lineBonus, if_neg (not_lt.mpr hsp)])
      | simp [check_lines, hn, scoreSpeedUpdate, lineBonus]
  all_goals (intro hcontra; omega)

set_option maxRecDepth 1000000 in
/-- Witness for C2 (amended) at a concrete single-line clear. -/
theorem c2_speed_update_witness :
    (check_lines stateRow0).speed =
      stateRow0.speed - ((stateRow0.score : Int) + (lineBonus 1 : Int)) * 400 * 1 :=
  ((c2_speed_update stateRow0 (by decide) (by decide)).1 (by decide)).trans (by decide)

/-- C10.  A pass that finds five or more complete lines adds nothing to the
score and leaves the fall-period unchanged. -/
theorem c10_no_reward_above_four (s : State) (h : 5 ≤ (clearScan s.board).lines) :
    (check_lines s).score = s.score ∧ (check_lines s).speed = s.speed := by
  rcases hn : (clearScan s.board).lines with _ | _ | _ | _ | _ | m <;> rw [hn] at h <;>
    try omega
  constructor <;> simp [check_lines, hn, scoreSpeedUpdate]

set_option maxRecDepth 1000000 in
/-- Witness for C10: a five-line pass leaves score and speed unchanged. -/
theorem c10_no_reward_above_four_witness :
    5 ≤ (clearScan stateFiveRows.board).lines ∧
      (check_lines stateFiveRows).score = stateFiveRows.score :=
  ⟨by decide, (c10_no_reward_above_four stateFiveRows (by decide)).1⟩

/-- Pointwise value of the locking fold: a cell holds the color tag exactly
when some pair of the remaining scan list writes it, and is otherwise
untouched. -/
theorem lock_foldl_apply (p : Piece) (L : List (Nat × Nat)) :
    ∀ (acc : Board) (q : Pos),
      (L.foldl
        (fun a yx =>
          if occupies p.type p.rotation yx.1 yx.2 then
            Function.update a ((p.y + (yx.1 : Int)).toNat, (p.x + (yx.2 : Int)).toNat)
              (p.type + 1)
          else a) acc) q =
      if ∃ yx ∈ L, occupies p.type p.rotation yx.1 yx.2 = true ∧
          (((p.y + (yx.1 : Int)).toNat, (p.x + (yx.2 : Int)).toNat) : Pos) = q
      then p.type + 1 else acc q := by
  induction L with
  | nil => intro acc q; simp
  | cons hd tl ih =>
    intro acc q
    rw [List.foldl_cons]
    by_cases hocc : occupies p.type p.rotation hd.1 hd.2 = true
    · rw [if_pos hocc, ih]
      by_cases hex : ∃ yx ∈ tl, occupies p.type p.rotation yx.1 yx.2 = true ∧
          (((p.y + (yx.1 : Int)).toNat, (p.x + (yx.2 : Int)).toNat) : Pos) = q
      · rw [if_pos hex, if_pos]
        obtain ⟨yx, hmem, hp⟩ := hex
        exact ⟨yx, List.mem_cons_of_mem _ hmem, hp⟩
      · rw [if_neg hex, Function.update_apply]
        by_cases hq : q = (((p.y + (hd.1 : Int)).toNat, (p.x + (hd.2 : Int)).toNat) : Pos)
        · rw [if_pos hq, if_pos ⟨hd, List.mem_cons_self _ _, hocc, hq.symm⟩]
        · rw [if_neg hq, if_neg]
          rintro ⟨yx, hmem, hyocc, hyq⟩
          rcases List.mem_cons.mp hmem with h | h
          · exact hq (by rw [← hyq, h])
          · exact hex ⟨yx, h, hyocc, hyq⟩
    · rw [if_neg hocc, ih]
      by_cases hex : ∃ yx ∈ tl, occupies p.type p.rotation yx.1 yx.2 = true ∧
          (((p.y + (yx.1 : Int)).toNat, (p.x + (yx.2 : Int)).toNat) : Pos) = q
      · rw [if_pos hex, if_pos]
        obtain ⟨yx, hmem, hp⟩ := hex
        exact ⟨yx, List.mem_cons_of_mem _ hmem, hp⟩
      · rw [if_neg hex, if_neg]
        rintro ⟨yx, hmem, hyocc, hyq⟩
        rcases List.mem_cons.mp hmem with h | h
        · exact hocc (h ▸ hyocc)
        · exact hex ⟨yx, h, hyocc, hyq⟩

/-- The footprint test agrees with existence of a writing pair in the lock
scan list. -/
theorem inFootprint_iff (p : Piece) (q : Pos) :
    inFootprint p q = true ↔
      ∃ yx ∈ cells16, occupies p.type p.rotation yx.1 yx.2 = true ∧
        (((p.y + (yx.1 : Int)).toNat, (p.x + (yx.2 : Int)).toNat) : Pos) = q := by
  simp only [inFootprint, List.any_eq_true, List.mem_range, Bool.and_eq_true,
    decide_eq_true_eq, cells16, List.mem_flatMap, List.mem_map]
  constructor
  · rintro ⟨y, hy, x, hx, hocc, hq⟩
    exact ⟨(y, x), ⟨y, hy, x, hx, rfl⟩, hocc, hq⟩
  · rintro ⟨yx, ⟨y, hy, x, hx, hyx⟩, hocc, hq⟩
    subst hyx
    exact ⟨y, hy, x, hx, hocc, hq⟩

/-- C9.  Locking a collision-free piece sets exactly the board cells under its
translated occupied shape cells to the color tag `type + 1` and leaves every
other cell unchanged. -/
theorem c9_lock_frame (b : Board) (p : Piece)
    (_hfree : check_collision b p = false) (q : Pos) :
    (inFootprint p q = true → lock_piece b p q = p.type + 1) ∧
      (inFootprint p q = false → lock_piece b p q = b q) := by
  have hchar := lock_foldl_apply p cells16 b q
  constructor
  · intro h
    rw [lock_piece, hchar, if_pos ((inFootprint_iff p q).mp h)]
  · intro h
    rw [lock_piece, hchar, if_neg]
    intro hc
    rw [(inFootprint_iff p q).mpr hc] at h
    exact Bool.noConfusion h

/-- Witness for C9: locking an I piece on the empty board writes its tag at a
footprint cell and leaves a cell outside the footprint empty. -/
theorem c9_lock_frame_witness :
    lock_piece emptyBoard ⟨8, 8, 0, 0, 0⟩ ((9, 8) : Pos) = 1 ∧
      lock_piece emptyBoard ⟨8, 8, 0, 0, 0⟩ ((0, 0) : Pos) = emptyBoard ((0, 0) : Pos) :=
  ⟨(c9_lock_frame emptyBoard ⟨8, 8, 0, 0, 0⟩ (by decide) ((9, 8) : Pos)).1 (by decide),
   (c9_lock_frame emptyBoard ⟨8, 8, 0, 0, 0⟩ (by decide) ((0, 0) : Pos)).2 (by decide)⟩

/-- A move attempt that counts no change leaves the board unchanged, and its
guard is false. -/
theorem moveCell_count_zero (b : Board) (s t : Pos) (h : (moveCell b s t).2 = 0) :
    (moveCell b s t).1 = b ∧ ¬(b s ≠ 0 ∧ b t = 0) := by
  by_cases hc : b s ≠ 0 ∧ b t = 0
  · simp [moveCell, hc] at h
  · simp [moveCell, hc]

/-- One move attempt cannot increase the board potential, and a counted move
strictly decreases it (for in-range pairs whose weight drops toward the
target). -/
theorem moveCell_pot (w : Pos → Nat) (b : Board) (s t : Pos)
    (hs1 : s.1 < 20) (hs2 : s.2 < 20) (ht1 : t.1 < 20) (ht2 : t.2 < 20)
    (hne : s ≠ t) (hw : w t + 1 ≤ w s) :
    potential w (moveCell b s t).1 + (moveCell b s t).2 ≤ potential w b := by
  by_cases hc : b s ≠ 0 ∧ b t = 0
  · obtain ⟨hbs, hbt⟩ := hc
    simp only [moveCell, if_pos (And.intro hbs hbt)]
    have hsA : s ∈ cellArea := by
      simp only [cellArea, Finset.mem_product, Finset.mem_range]
      exact ⟨hs1, hs2⟩
    have htA : t ∈ cellArea := by
      simp only [cellArea, Finset.mem_product, Finset.mem_range]
      exact ⟨ht1, ht2⟩
    have htA' : t ∈ cellArea.erase s := Finset.mem_erase.mpr ⟨fun h => hne h.symm, htA⟩
    have split1 : ∀ g : Board,
        potential w g =
          (∑ q ∈ (cellArea.erase s).erase t, if g q ≠ 0 then w q else 0) +
            (if g t ≠ 0 then w t else 0) + (if g s ≠ 0 then w s else 0) := by
      intro g
      rw [potential, ← Finset.sum_erase_add cellArea _ hsA,
        ← Finset.sum_erase_add (cellArea.erase s) _ htA']
    have hbase :
        (∑ q ∈ (cellArea.erase s).erase t,
            if Function.update (Function.update b t (b s)) s 0 q ≠ 0 then w q else 0) =
          ∑ q ∈ (cellArea.erase s).erase t, if b q ≠ 0 then w q else 0 := by
      refine Finset.sum_congr rfl fun q hq => ?_
      obtain ⟨hqt, hqs, _⟩ := by
        have h1 := Finset.mem_erase.mp hq
        have h2 := Finset.mem_erase.mp h1.2
        exact (⟨h1.1, h2.1, h2.2⟩ : _ ∧ _ ∧ _)
      rw [Function.update_noteq hqs, Function.update_noteq hqt]
    rw [split1, split1, hbase]
    rw [Function.update_same]
    rw [Function.update_noteq (fun h => hne h.symm), Function.update_same]
    simp only [hbt, hbs, ne_eq, not_true_eq_false, if_false, if_true, not_false_eq_true]
    omega
  · simp [moveCell, hc]

/-- A sweep that counts zero changes leaves the board unchanged and every
pair's move guard is false on that board. -/
theorem sweepRule_count_zero : ∀ (l : List (Pos × Pos)) (b : Board),
    (sweepRule l b).2 = 0 →
      (sweepRule l b).1 = b ∧ ∀ pr ∈ l, ¬(b pr.1 ≠ 0 ∧ b pr.2 = 0) := by
  intro l
  induction l with
  | nil => intro b _; simp [sweepRule]
  | cons pr rest ih =>
    intro b h
    simp only [sweepRule] at h ⊢
    have h1 : (moveCell b pr.1 pr.2).2 = 0 := by omega
    have h2 : (sweepRule rest (moveCell b pr.1 pr.2).1).2 = 0 := by omega
    obtain ⟨hb1, hg1⟩ := moveCell_count_zero b pr.1 pr.2 h1
    rw [hb1] at h2 ⊢
    obtain ⟨hb2, hg2⟩ := ih b h2
    refine ⟨hb2, fun pr' hpr' => ?_⟩
    rcases List.mem_cons.mp hpr' with h | h
    · rw [h]; exact hg1
    · exact hg2 pr' h

/-- A full sweep decreases the potential by at least its change count. -/
theorem sweepRule_pot (w : Pos → Nat) : ∀ (l : List (Pos × Pos)) (b : Board),
    (∀ pr ∈ l, pr.1.1 < 20 ∧ pr.1.2 < 20 ∧ pr.2.1 < 20 ∧ pr.2.2 < 20 ∧ pr.1 ≠ pr.2 ∧
      w pr.2 + 1 ≤ w pr.1) →
    potential w (sweepRule l b).1 + (sweepRule l b).2 ≤ potential w b := by
  intro l
  induction l with
  | nil => intro b _; simp [sweepRule]
  | cons pr rest ih =>
    intro b hl
    obtain ⟨h1, h2, h3, h4, h5, h6⟩ := hl pr (List.mem_cons_self _ _)
    have hhd := moveCell_pot w b pr.1 pr.2 h1 h2 h3 h4 h5 h6
    have htl := ih (moveCell b pr.1 pr.2).1 fun pr' hpr' => hl pr' (List.mem_cons_of_mem _ hpr')
    simp only [sweepRule]
    omega

/-- With fuel exceeding the board potential, the sweep loop reaches a board
whose next sweep counts zero changes. -/
theorem gravityFuel_fix (w : Pos → Nat) (l : List (Pos × Pos))
    (hl : ∀ pr ∈ l, pr.1.1 < 20 ∧ pr.1.2 < 20 ∧ pr.2.1 < 20 ∧ pr.2.2 < 20 ∧ pr.1 ≠ pr.2 ∧
      w pr.2 + 1 ≤ w pr.1) :
    ∀ (n : Nat) (b : Board), potential w b < n →
      (sweepRule l (gravityFuel n l b)).2 = 0 := by
  intro n
  induction n with
  | zero => intro b h; omega
  | succ n ih =>
    intro b h
    by_cases h0 : (sweepRule l b).2 = 0
    · simp [gravityFuel, h0]
    · rw [gravityFuel, if_neg h0]
      refine ih _ ?_
      have := sweepRule_pot w l b hl
      omega

set_option maxRecDepth 100000 in
/-- Every sweep pair of a gravity invocation is in range, moves to a distinct
cell, and strictly decreases the invocation weight toward its target. -/
theorem gravPairs_ok (cr cc : Int) :
    ∀ pr ∈ gravPairs cr cc,
      pr.1.1 < 20 ∧ pr.1.2 < 20 ∧ pr.2.1 < 20 ∧ pr.2.2 < 20 ∧ pr.1 ≠ pr.2 ∧
        wgt cr cc pr.2 + 1 ≤ wgt cr cc pr.1 := by
  by_cases hr1 : cr = -1 <;> by_cases hr2 : cr < 10 <;>
    by_cases hc1 : cc = -1 <;> by_cases hc2 : 10 ≤ cc <;>
    simp only [gravPairs, rowPairs, colPairs, wgt, hr1, hr2, hc1, hc2, if_true, if_false,
      ite_true, ite_false, if_pos, if_neg, not_false_eq_true, not_true_eq_false] <;>
    first
      | omega
      | decide

/-- Membership of an upward-fall pair. -/
theorem mem_upPairs (y x : Nat) (h1 : 1 ≤ y) (h2 : y < 10) (h3 : x < 20) :
    ((((y, x) : Pos), ((y - 1, x) : Pos))) ∈ upPairs := by
  simp only [upPairs, List.mem_flatMap, List.mem_map, List.mem_range]
  refine ⟨y, ⟨y - 1, by omega, by omega⟩, x, h3, rfl⟩

/-- Membership of a downward-fall pair. -/
theorem mem_downPairs (y x : Nat) (h1 : 10 ≤ y) (h2 : y < 19) (h3 : x < 20) :
    ((((y, x) : Pos), ((y + 1, x) : Pos))) ∈ downPairs := by
  simp only [downPairs, List.mem_flatMap, List.mem_map, List.mem_range]
  refine ⟨y, ⟨18 - y, by omega, by omega⟩, x, h3, rfl⟩

/-- Membership of a rightward-fall pair in the matching quadrant list. -/
theorem mem_rightPairs (y x : Nat) (hy : y < 20) (h1 : 10 ≤ x) (h2 : x < 19) :
    ((((y, x) : Pos), ((y, x + 1) : Pos))) ∈ topRightPairs ∨
      ((((y, x) : Pos), ((y, x + 1) : Pos))) ∈ botRightPairs := by
  by_cases htop : y < 10
  · left
    simp only [topRightPairs, List.mem_flatMap, List.mem_map, List.mem_range]
    refine ⟨x, ⟨18 - x, by omega, by omega⟩, y, htop, rfl⟩
  · right
    simp only [botRightPairs, List.mem_flatMap, List.mem_map, List.mem_range]
    refine ⟨x, ⟨18 - x, by omega, by omega⟩, y, ⟨y - 10, by omega, by omega⟩, rfl⟩

/-- Membership of a leftward-fall pair in the matching quadrant list. -/
theorem mem_leftPairs (y x : Nat) (hy : y < 20) (h1 : 1 ≤ x) (h2 : x < 10) :
    ((((y, x) : Pos), ((y, x - 1) : Pos))) ∈ topLeftPairs ∨
      ((((y, x) : Pos), ((y, x - 1) : Pos))) ∈ botLeftPairs := by
  by_cases htop : y < 10
  · left
    simp only [topLeftPairs, List.mem_flatMap, List.mem_map, List.mem_range]
    refine ⟨x, ⟨x - 1, by omega, by omega⟩, y, htop, rfl⟩
  · right
    simp only [botLeftPairs, List.mem_flatMap, List.mem_map, List.mem_range]
    refine ⟨x, ⟨x - 1, by omega, by omega⟩, y, ⟨y - 10, by omega, by omega⟩, rfl⟩

/-- The board returned by `apply_gravity` is a fixed point: one more full
sweep over its pair list counts zero changes. -/
theorem apply_gravity_fix (cr cc : Int) (b : Board) :
    (sweepRule (gravPairs cr cc) (apply_gravity cr cc b)).2 = 0 :=
  gravityFuel_fix (wgt cr cc) (gravPairs cr cc) (gravPairs_ok cr cc) _ b
    (Nat.lt_succ_self _)

/-- C3.  When the gravity resolver returns, the board is a fixed point of the
applicable quadrant rules: along the relevant fall axis within the affected
quadrant, no occupied cell has an empty cell directly toward the edge cells
fall toward (upward for a row cleared above `centerY`, downward for a row
cleared at or below it, rightward and leftward analogously for columns). -/
theorem c3_gravity_settled (cr cc : Int) (b : Board) :
    (0 ≤ cr → cr < 10 → upSettled (apply_gravity cr cc b)) ∧
      (10 ≤ cr → downSettled (apply_gravity cr cc b)) ∧
      (10 ≤ cc → rightSettled (apply_gravity cr cc b)) ∧
      (0 ≤ cc → cc < 10 → leftSettled (apply_gravity cr cc b)) := by
  have hall := (sweepRule_count_zero _ _ (apply_gravity_fix cr cc b)).2
  refine ⟨fun hr0 hr10 => ?_, fun hr10 => ?_, fun hc10 => ?_, fun hc0 hc10 => ?_⟩
  · intro y x h1 h2 h3 hocc hempty
    have hmem : ((((y, x) : Pos), ((y - 1, x) : Pos))) ∈ gravPairs cr cc := by
      refine List.mem_append_left _ ?_
      rw [rowPairs, if_neg (by omega), if_pos hr10]
      exact mem_upPairs y x h1 h2 h3
    exact hall _ hmem ⟨hocc, hempty⟩
  · intro y x h1 h2 h3 hocc hempty
    have hmem : ((((y, x) : Pos), ((y + 1, x) : Pos))) ∈ gravPairs cr cc := by
      refine List.mem_append_left _ ?_
      rw [rowPairs, if_neg (by omega), if_neg (by omega)]
      exact mem_downPairs y x h1 h2 h3
    exact hall _ hmem ⟨hocc, hempty⟩
  · intro y x hy h1 h2 hocc hempty
    have hmem : ((((y, x) : Pos), ((y, x + 1) : Pos))) ∈ gravPairs cr cc := by
      refine List.mem_append_right _ ?_
      rw [colPairs, if_neg (by omega), if_pos hc10]
      rcases mem_rightPairs y x hy h1 h2 with h | h
      · exact List.mem_append_left _ h
      · exact List.mem_append_right _ h
    exact hall _ hmem ⟨hocc, hempty⟩
  · intro y x hy h1 h2 hocc hempty
    have hmem : ((((y, x) : Pos), ((y, x - 1) : Pos))) ∈ gravPairs cr cc := by
      refine List.mem_append_right _ ?_
      rw [colPairs, if_neg (by omega), if_neg (by omega)]
      rcases mem_leftPairs y x hy h1 h2 with h | h
      · exact List.mem_append_left _ h
      · exact List.mem_append_right _ h
    exact hall _ hmem ⟨hocc, hempty⟩

/-- Witness for C3: concrete invocation with a row cleared above center and a
column cleared right of center. -/
theorem c3_gravity_settled_witness :
    upSettled (apply_gravity 0 15 boardRow0) ∧ rightSettled (apply_gravity 0 15 boardRow0) :=
  ⟨(c3_gravity_settled 0 15 boardRow0).1 (by decide) (by decide),
   (c3_gravity_settled 0 15 boardRow0).2.2.1 (by decide)⟩

/-- C4.  The gravity sweep loop terminates for every board and every
combination of cleared-row and cleared-column arguments: after finitely many
full sweeps, a sweep counts zero moved cells. -/
theorem c4_gravity_terminates (cr cc : Int) (b : Board) :
    ∃ n : Nat, (sweepRule (gravPairs cr cc) (sweepIter n (gravPairs cr cc) b)).2 = 0 := by
  have main : ∀ (N : Nat) (b : Board), potential (wgt cr cc) b ≤ N →
      ∃ n : Nat, (sweepRule (gravPairs cr cc) (sweepIter n (gravPairs cr cc) b)).2 = 0 := by
    intro N
    induction N with
    | zero =>
      intro b hb
      refine ⟨0, ?_⟩
      have := sweepRule_pot (wgt cr cc) (gravPairs cr cc) b (gravPairs_ok cr cc)
      simpa [sweepIter] using by omega
    | succ N ih =>
      intro b hb
      by_cases h0 : (sweepRule (gravPairs cr cc) b).2 = 0
      · exact ⟨0, by simpa [sweepIter] using h0⟩
      · have hpot := sweepRule_pot (wgt cr cc) (gravPairs cr cc) b (gravPairs_ok cr cc)
        obtain ⟨n, hn⟩ := ih (sweepRule (gravPairs cr cc) b).1 (by omega)
        exact ⟨n + 1, by simpa [sweepIter] using hn⟩
  exact main _ b le_rfl

set_option maxRecDepth 1000000 in
/-- Counterexample for C1: on the board with row 0 and column 0 full, column 0
is complete in the pre-clear board, yet the pass clears only one line (the
row) and records no cleared column, because the column scan runs on the board
already mutated by the row clear. -/
theorem c1_cex :
    colComplete boardCross 0 = true ∧ (clearScan boardCross).lines = 1 ∧
      (clearScan boardCross).lastCol = -1 :=
  ⟨by decide, by decide, by decide⟩

/-- Simultaneously clearing rows below `k` does not change the completeness
of any row at or above `k`. -/
theorem rowComplete_rowsCleared (b : Board) (k y : Nat) (h : k ≤ y) :
    rowComplete (rowsCleared b k) y = rowComplete b y := by
  unfold rowComplete
  refine congrArg _ (funext fun x => ?_)
  simp only [rowsCleared]
  rw [if_neg fun hcond => absurd hcond.1 (by omega)]

/-- Simultaneously clearing columns below `k` does not change the
completeness of any column at or right of `k`. -/
theorem colComplete_colsCleared (b : Board) (k x : Nat) (h : k ≤ x) :
    colComplete (colsCleared b k) x = colComplete b x := by
  unfold colComplete
  refine congrArg _ (funext fun y => ?_)
  simp only [colsCleared]
  rw [if_neg fun hcond => absurd hcond.1 (by omega)]

/-- Clearing a complete row `k` on top of the simultaneous clear of the
complete rows below `k` gives the simultaneous clear below `k + 1`. -/
theorem clearRow_rowsCleared (b : Board) (k : Nat) (hc : rowComplete b k = true) :
    clearRow (rowsCleared b k) k = rowsCleared b (k + 1) := by
  funext q
  obtain ⟨qy, qx⟩ := q
  simp only [clearRow, rowsCleared]
  by_cases h1 : qy = k
  · subst h1
    by_cases h2 : qx < 20
    · simp [h2, hc]
    · simp [h2, hc]
  · rw [if_neg fun hcond => h1 hcond.1]
    by_cases hrc : rowComplete b qy = true
    · simp only [hrc, and_true]
      split_ifs <;> first | rfl | omega
    · simp only [hrc]
      split_ifs <;> first | rfl | (exfalso; tauto)
  
/-- Skipping an incomplete row `k` preserves the simultaneous-clear
description. -/
theorem rowsCleared_succ_incomplete (b : Board) (k : Nat)
    (hc : rowComplete b k = false) :
    rowsCleared b k = rowsCleared b (k + 1) := by
  funext q
  obtain ⟨qy, qx⟩ := q
  simp only [rowsCleared]
  by_cases hrc : rowComplete b qy = true
  · have h1 : qy ≠ k := fun h => by rw [h, hc] at hrc; exact Bool.noConfusion hrc
    simp only [hrc, and_true]
    split_ifs <;> first | rfl | omega
  · simp only [hrc]
    split_ifs <;> first | rfl | (exfalso; tauto)

/-- Clearing a complete column `k` on top of the simultaneous clear of the
complete columns left of `k` gives the simultaneous clear left of `k + 1`. -/
theorem clearCol_colsCleared (b : Board) (k : Nat) (hc : colComplete b k = true) :
    clearCol (colsCleared b k) k = colsCleared b (k + 1) := by
  funext q
  obtain ⟨qy, qx⟩ := q
  simp only [clearCol, colsCleared]
  by_cases h1 : qx = k
  · subst h1
    by_cases h2 : qy < 20
    · simp [h2, hc]
    · simp [h2, hc]
  · rw [if_neg fun hcond => h1 hcond.1]
    by_cases hrc : colComplete b qx = true
    · simp only [hrc, and_true]
      split_ifs <;> first | rfl | omega
    · simp only [hrc]
      split_ifs <;> first | rfl | (exfalso; tauto)

/-- Skipping an incomplete column `k` preserves the simultaneous-clear
description. -/
theorem colsCleared_succ_incomplete (b : Board) (k : Nat)
    (hc : colComplete b k = false) :
    colsCleared b k = colsCleared b (k + 1) := by
  funext q
  obtain ⟨qy, qx⟩ := q
  simp only [colsCleared]
  by_cases hrc : colComplete b qx = true
  · have h1 : qx ≠ k := fun h => by rw [h, hc] at hrc; exact Bool.noConfusion hrc
    simp only [hrc, and_true]
    split_ifs <;> first | rfl | omega
  · simp only [hrc]
    split_ifs <;> first | rfl | (exfalso; tauto)

/-- Characterization of the row phase: after scanning rows `0..k-1` the board
is the simultaneous clear of the rows complete in the starting board, and the
line count has grown by the number of those rows. -/
theorem rowScan_spec (init : ScanResult) : ∀ k : Nat,
    ((List.range k).foldl rowPass init).board = rowsCleared init.board k ∧
      ((List.range k).foldl rowPass init).lines =
        init.lines + ((List.range k).filter fun y => rowComplete init.board y).length := by
  intro k
  induction k with
  | zero =>
    refine ⟨funext fun q => ?_, by simp⟩
    simp [rowsCleared]
  | succ k ih =>
    obtain ⟨hb, hl⟩ := ih
    rw [List.range_succ, List.foldl_append, List.foldl_cons, List.foldl_nil]
    have hcc : rowComplete ((List.range k).foldl rowPass init).board k =
        rowComplete init.board k := by
      rw [hb, rowComplete_rowsCleared init.board k k le_rfl]
    by_cases hc : rowComplete init.board k = true
    · rw [rowPass, hcc, hc, if_pos rfl]
      refine ⟨?_, ?_⟩
      · simpa [hb] using clearRow_rowsCleared init.board k hc
      · simp [hl, List.range_succ, List.filter_append, hc]; omega
    · rw [rowPass, hcc, eq_false_of_ne_true hc, if_neg (Bool.noConfusion ·)]
      refine ⟨?_, ?_⟩
      · rw [hb, rowsCleared_succ_incomplete init.board k (eq_false_of_ne_true hc)]
      · simp [hl, List.range_succ, List.filter_append, eq_false_of_ne_true hc]

/-- Characterization of the column phase: after scanning columns `0..k-1` the
board is the simultaneous clear of the columns complete in the starting
board, and the line count has grown by the number of those columns. -/
theorem colScan_spec (init : ScanResult) : ∀ k : Nat,
    ((List.range k).foldl colPass init).board = colsCleared init.board k ∧
      ((List.range k).foldl colPass init).lines =
        init.lines + ((List.range k).filter fun x => colComplete init.board x).length := by
  intro k
  induction k with
  | zero =>
    refine ⟨funext fun q => ?_, by simp⟩
    simp [colsCleared]
  | succ k ih =>
    obtain ⟨hb, hl⟩ := ih
    rw [List.range_succ, List.foldl_append, List.foldl_cons, List.foldl_nil]
    have hcc : colComplete ((List.range k).foldl colPass init).board k =
        colComplete init.board k := by
      rw [hb, colComplete_colsCleared init.board k k le_rfl]
    by_cases hc : colComplete init.board k = true
    · rw [colPass, hcc, hc, if_pos rfl]
      refine ⟨?_, ?_⟩
      · simpa [hb] using clearCol_colsCleared init.board k hc
      · simp [hl, List.range_succ, List.filter_append, hc]; omega
    · rw [colPass, hcc, eq_false_of_ne_true hc, if_neg (Bool.noConfusion ·)]
      refine ⟨?_, ?_⟩
      · rw [hb, colsCleared_succ_incomplete init.board k (eq_false_of_ne_true hc)]
      · simp [hl, List.range_succ, List.filter_append, eq_false_of_ne_true hc]

/-- C1 (amended).  In a single pass, row completeness is evaluated against the
pre-clear board, but the complete rows are cleared during the row scan, and
column completeness is then evaluated against the board left by the row
clears: the pass counts the rows complete in the pre-clear board plus the
columns complete in the post-row-clear board, and the row phase leaves the
simultaneous clear of the pre-clear-complete rows. -/
theorem c1_column_eval_post_rows (b : Board) :
    (clearScan b).lines = numCompleteRows b + numCompleteCols (rowPhase b).board ∧
      (rowPhase b).board = rowsCleared b 20 := by
  have hrow := rowScan_spec ⟨b, 0, -1, -1⟩ 20
  have hcol := colScan_spec (rowPhase b) 20
  have hrp : rowPhase b = (List.range 20).foldl rowPass ⟨b, 0, -1, -1⟩ := rfl
  have hcs : clearScan b = (List.range 20).foldl colPass (rowPhase b) := rfl
  refine ⟨?_, by rw [hrp]; exact hrow.1⟩
  rw [hcs, hcol.2, hrp, hrow.2]
  simp [numCompleteRows, numCompleteCols, hrp]
